import Mathlib

/-!
Shallow embedding of `src/green/node.rs` of the rowan repository: the
immutable green-tree node (`GreenNode`), its child slots (`GreenChild`),
construction (`GreenNode::new`), accessors, range lookup
(`child_at_range`), copy-on-write child replacement (`replace_child`)
and the `Children` iterator.

`TextSize` is embedded as `Nat`, `SyntaxKind` as `Nat` (a `u16` tag in
the source; only equality of tags is ever used).  `TextRange` and its
`ordering` / `contains_range` operations come from the `text_size`
collaborator crate, which is not part of this repository; they are
modelled from the spec.  Rust's `slice::binary_search_by` is embedded
as the standard-library algorithm (midpoint loop returning
`Ok found / Err insertion-point`).
-/

set_option autoImplicit false

namespace Rowan

/-- Grammar-kind tag (`SyntaxKind(pub u16)` in the source); only equality
of tags matters here. -/
abbrev SyntaxKind := Nat

/-- Modelled from the spec: the opaque terminal token collaborator,
"an opaque leaf with its own kind tag and length; treated as a black box
offering only `text_len()` and equality/hash". -/
structure GreenToken where
  kind : SyntaxKind
  text_len : Nat
deriving DecidableEq, Repr

/-- Embedding of `NodeOrToken<N, T>`: a tagged union of a node and a token. -/
inductive NodeOrToken (N T : Type) where
  | node (n : N)
  | token (t : T)
deriving DecidableEq, Repr

/-- Modelled from the spec: the `TextRange` collaborator type, a half-open
interval `[start, stop)` of text offsets with `start ≤ stop`. -/
structure TextRange where
  start : Nat
  stop : Nat
deriving DecidableEq, Repr

/-- Modelled from the spec: `TextRange::at(offset, len)` builds the range
`[offset, offset + len)`. -/
def TextRange.at (offset len : Nat) : TextRange :=
  ⟨offset, offset + len⟩

/-- Modelled from the spec: the three-way ordering of a candidate child
range against a query range — query wholly after the child (child ends at
or before the query starts) makes the child less; query wholly before the
child makes it greater; any overlap/containment compares equal
(`TextRange::ordering` of the `text_size` collaborator). -/
def TextRange.ordering (r other : TextRange) : Ordering :=
  if r.stop ≤ other.start then .lt
  else if other.stop ≤ r.start then .gt
  else .eq

/-- Modelled from the spec: range containment test
(`TextRange::contains_range` of the `text_size` collaborator):
`r` fully contains `other`. -/
def TextRange.contains_range (r other : TextRange) : Bool :=
  decide (r.start ≤ other.start) && decide (other.stop ≤ r.stop)

mutual
/-- Embedding of `GreenNode`: kind tag, total covered text length, and the ordered
child slots, as stored behind the `ThinArc<GreenNodeHead, GreenChild>`
allocation (header fields inlined). -/
inductive GreenNode : Type where
  | mk (kind : SyntaxKind) (text_len : Nat) (slice : List GreenChild) : GreenNode

/-- Embedding of `GreenChild`: a child slot — either a node or a token, together with
its offset relative to the parent's start. -/
inductive GreenChild : Type where
  | node (offset_in_parent : Nat) (node : GreenNode) : GreenChild
  | token (offset_in_parent : Nat) (token : GreenToken) : GreenChild
end

/-- Embedding of `GreenElement = NodeOrToken<GreenNode, GreenToken>`; owned elements
and `GreenElementRef` references coincide in the embedding. -/
abbrev GreenElement := NodeOrToken GreenNode GreenToken

/-- Accessor `GreenNode::kind`. -/
def GreenNode.kind : GreenNode → SyntaxKind
  | .mk k _ _ => k

/-- Accessor `GreenNode::text_len`. -/
def GreenNode.text_len : GreenNode → Nat
  | .mk _ l _ => l

/-- The child-slot slice stored in the node (`self.data.slice`). -/
def GreenNode.slice : GreenNode → List GreenChild
  | .mk _ _ cs => cs

/-- The `text_len` of a `GreenElement` (dispatches to the node's stored total
or the token's length). -/
def GreenElement.text_len : GreenElement → Nat
  | .node n => n.text_len
  | .token t => t.text_len

/-- Accessor `GreenChild::as_ref`. -/
def GreenChild.as_ref : GreenChild → GreenElement
  | .node _ n => .node n
  | .token _ t => .token t

/-- Accessor `GreenChild::offset_in_parent`. -/
def GreenChild.offset_in_parent : GreenChild → Nat
  | .node o _ => o
  | .token o _ => o

/-- Accessor `GreenChild::range_in_parent`. -/
def GreenChild.range_in_parent (c : GreenChild) : TextRange :=
  TextRange.at c.offset_in_parent c.as_ref.text_len

/-- Wrapping one element into its child slot at a given offset (the body
of the `map` closure in `GreenNode::new`). -/
def GreenChild.ofElement (offset_in_parent : Nat) : GreenElement → GreenChild
  | .node n => .node offset_in_parent n
  | .token t => .token offset_in_parent t

/-- The single pass of `GreenNode::new`: consume the elements left to
right keeping a running offset; each element is slotted at the running
offset, which then advances by the element's length.  Returns the slots
and the final accumulated total. -/
def buildSlots (acc : Nat) : List GreenElement → List GreenChild × Nat
  | [] => ([], acc)
  | el :: rest =>
    let r := buildSlots (acc + el.text_len) rest
    (GreenChild.ofElement acc el :: r.1, r.2)

/-- Embedding of `GreenNode::new`: slot the children with running offsets, then patch
the header's `text_len` (initially 0) to the accumulated total. -/
def GreenNode.new (kind : SyntaxKind) (children : List GreenElement) : GreenNode :=
  let r := buildSlots 0 children
  .mk kind r.2 r.1

/-- The loop of Rust's `slice::binary_search_by`, on the window
`[left, right)`: probe `mid = left + (right - left) / 2`; on `Less`
move `left` past `mid`, on `Greater` shrink `right` to `mid`, on
`Equal` return `Ok mid`; an empty window yields `Err left`
(the insertion point).  `Except.error` plays `Err`, `Except.ok`
plays `Ok`.  The out-of-range probe branch is unreachable whenever
`right ≤ length`. -/
def binarySearchLoop {α : Type} (f : α → Ordering) (xs : List α) (left right : Nat) :
    Except Nat Nat :=
  if h : left < right then
    let mid := left + (right - left) / 2
    match xs[mid]? with
    | none => .error left
    | some x =>
      match f x with
      | .lt => binarySearchLoop f xs (mid + 1) right
      | .gt => binarySearchLoop f xs left mid
      | .eq => .ok mid
  else
    .error left
termination_by right - left
decreasing_by
  · omega
  · omega

/-- Embedding of `slice::binary_search_by` over the whole slice. -/
def binarySearchBy {α : Type} (f : α → Ordering) (xs : List α) : Except Nat Nat :=
  binarySearchLoop f xs 0 xs.length

/-- The step `.unwrap_or_else(|it| it.saturating_sub(1))` applied to the binary
search result: a found index passes through, an insertion point is moved
one slot back, saturating at 0 (`Nat` subtraction saturates). -/
def resolveSearch : Except Nat Nat → Nat
  | .ok i => i
  | .error i => i - 1

/-- The index `child_at_range` selects for the containment test. -/
def GreenNode.searchIdx (n : GreenNode) (range : TextRange) : Nat :=
  resolveSearch (binarySearchBy (fun it => TextRange.ordering it.range_in_parent range) n.slice)

/-- Embedding of `GreenNode::child_at_range`: three-way binary search over the child
slots, back off one slot on a miss, then keep the slot only if its range
fully contains the query range. -/
def GreenNode.child_at_range (n : GreenNode) (range : TextRange) :
    Option (Nat × Nat × GreenElement) :=
  let idx := n.searchIdx range
  match n.slice[idx]? with
  | some child =>
    if child.range_in_parent.contains_range range then
      some (idx, child.offset_in_parent, child.as_ref)
    else
      none
  | none => none

/-- The `enumerate().map(...)` pass of `GreenNode::replace_child`,
threading the `replacement: Option<GreenElement>` cell: at position
`idx` the cell is `take`n and `unwrap`ped — `none` reaching that
`unwrap` is the panic, embedded as `Except.error ()`. -/
def substChildren (idx : Nat) (i : Nat) (replacement : Option GreenElement) :
    List GreenElement → Except Unit (List GreenElement)
  | [] => .ok []
  | el :: rest =>
    if i = idx then
      match replacement with
      | some r => (substChildren idx (i + 1) none rest).map (r :: ·)
      | none => .error ()
    else
      (substChildren idx (i + 1) replacement rest).map (el :: ·)

/-- Embedding of `GreenNode::replace_child`: rebuild via `GreenNode::new` from the
node's children with the element at `idx` substituted; `Except.error ()`
marks the (unreachable) `unwrap` panic. -/
def GreenNode.replace_child (n : GreenNode) (idx : Nat) (new_child : GreenElement) :
    Except Unit GreenNode :=
  (substChildren idx 0 (some new_child) (n.slice.map GreenChild.as_ref)).map
    (GreenNode.new n.kind)

/-- The `Children` iterator: a double-ended view over the node's child
slots; its state is the not-yet-yielded window of the slice
(`slice::Iter`). -/
structure Children where
  inner : List GreenChild

/-- Embedding of `GreenNode::children`: a fresh view over the whole slot slice. -/
def GreenNode.children (n : GreenNode) : Children :=
  ⟨n.slice⟩

/-- Embedding of `Iterator::next` for `Children`: yield the front slot as a
discriminated element reference, or `none` when exhausted. -/
def Children.next : Children → Option GreenElement × Children
  | ⟨[]⟩ => (none, ⟨[]⟩)
  | ⟨c :: rest⟩ => (some c.as_ref, ⟨rest⟩)

/-- Embedding of `DoubleEndedIterator::next_back` for `Children`: yield the back slot,
or `none` when exhausted. -/
def Children.next_back (c : Children) : Option GreenElement × Children :=
  match c.inner.getLast? with
  | none => (none, c)
  | some x => (some x.as_ref, ⟨c.inner.dropLast⟩)

/-- Embedding of `ExactSizeIterator::len` for `Children`: the exact number of items
remaining. -/
def Children.len (c : Children) : Nat :=
  c.inner.length

/-- Collecting the view by repeated `next` (forward consumption). -/
def Children.collect : Children → List GreenElement
  | ⟨[]⟩ => []
  | ⟨c :: rest⟩ => c.as_ref :: Children.collect ⟨rest⟩

/-- Collecting the view by repeated `next_back` (backward consumption). -/
def Children.collectBack (c : Children) : List GreenElement :=
  match h : c.inner.getLast? with
  | none => []
  | some x => x.as_ref :: Children.collectBack ⟨c.inner.dropLast⟩
termination_by c.inner.length
decreasing_by
  have hne : c.inner ≠ [] := by
    intro hnil
    rw [hnil] at h
    simp at h
  have hpos := List.length_pos.mpr hne
  simp only [List.length_dropLast]
  omega

/-- A hash-combining step (`Hash::hash` composition order is irrelevant
to the congruence property; any fixed mixing function represents it). -/
def mixHash (a b : Nat) : Nat :=
  a * 1000003 + b

mutual
/-- The derived `Hash` for `GreenNode`: hashes the header (kind and
text_len) and then each child slot, never the allocation address. -/
def hashGreenNode : GreenNode → Nat
  | .mk k l cs => mixHash 0 (mixHash k (mixHash l (hashGreenChildren cs)))

/-- Hash of a child-slot list, slot by slot. -/
def hashGreenChildren : List GreenChild → Nat
  | [] => 7
  | c :: rest => mixHash (hashGreenChild c) (hashGreenChildren rest)

/-- The derived `Hash` for `GreenChild`: variant tag, offset, payload. -/
def hashGreenChild : GreenChild → Nat
  | .node o n => mixHash 1 (mixHash o (hashGreenNode n))
  | .token o t => mixHash 2 (mixHash o (mixHash t.kind t.text_len))
end

/-- Total of the children's own lengths (the spec's `Σ Lᵢ`). -/
def lensSum (els : List GreenElement) : Nat :=
  (els.map GreenElement.text_len).sum

/-- The spec's sum of `Lⱼ` over `j < i`: total length of the first `i`
children. -/
def offsetAt (els : List GreenElement) (i : Nat) : Nat :=
  lensSum (els.take i)

@[simp]
theorem GreenChild.as_ref_ofElement (o : Nat) (el : GreenElement) :
    (GreenChild.ofElement o el).as_ref = el := by
  cases el <;> rfl

@[simp]
theorem GreenChild.offset_in_parent_ofElement (o : Nat) (el : GreenElement) :
    (GreenChild.ofElement o el).offset_in_parent = o := by
  cases el <;> rfl

@[simp]
theorem GreenChild.range_in_parent_ofElement (o : Nat) (el : GreenElement) :
    (GreenChild.ofElement o el).range_in_parent = ⟨o, o + el.text_len⟩ := by
  cases el <;> rfl

theorem buildSlots_length (els : List GreenElement) (acc : Nat) :
    (buildSlots acc els).1.length = els.length := by
  induction els generalizing acc with
  | nil => rfl
  | cons el rest ih => simp [buildSlots, ih]

theorem buildSlots_total (els : List GreenElement) (acc : Nat) :
    (buildSlots acc els).2 = acc + lensSum els := by
  induction els generalizing acc with
  | nil => simp [buildSlots, lensSum]
  | cons el rest ih => simp [buildSlots, ih, lensSum]; ring

theorem buildSlots_get? (els : List GreenElement) (acc i : Nat) :
    (buildSlots acc els).1[i]? =
      els[i]?.map (GreenChild.ofElement (acc + offsetAt els i)) := by
  induction els generalizing acc i with
  | nil => simp [buildSlots]
  | cons el rest ih =>
    cases i with
    | zero => simp [buildSlots, offsetAt, lensSum]
    | succ j =>
      simp only [buildSlots, List.getElem?_cons_succ, ih]
      have : acc + el.text_len + offsetAt rest j = acc + offsetAt (el :: rest) (j + 1) := by
        simp [offsetAt, lensSum]
        ring
      rw [this]

@[simp]
theorem GreenNode.new_kind (k : SyntaxKind) (els : List GreenElement) :
    (GreenNode.new k els).kind = k := rfl

@[simp]
theorem GreenNode.new_text_len (k : SyntaxKind) (els : List GreenElement) :
    (GreenNode.new k els).text_len = lensSum els := by
  show (buildSlots 0 els).2 = lensSum els
  rw [buildSlots_total]
  exact Nat.zero_add _

@[simp]
theorem GreenNode.new_slice_length (k : SyntaxKind) (els : List GreenElement) :
    (GreenNode.new k els).slice.length = els.length :=
  buildSlots_length els 0

@[simp]
theorem GreenNode.new_slice_get? (k : SyntaxKind) (els : List GreenElement) (i : Nat) :
    (GreenNode.new k els).slice[i]? =
      els[i]?.map (GreenChild.ofElement (offsetAt els i)) := by
  show (buildSlots 0 els).1[i]? = _
  rw [buildSlots_get?]
  simp

theorem offsetAt_zero (els : List GreenElement) : offsetAt els 0 = 0 := by
  simp [offsetAt, lensSum]

theorem offsetAt_succ (els : List GreenElement) (i : Nat) (el : GreenElement)
    (h : els[i]? = some el) :
    offsetAt els (i + 1) = offsetAt els i + el.text_len := by
  simp [offsetAt, lensSum, List.take_succ, h]

theorem offsetAt_mono (els : List GreenElement) {i j : Nat} (h : i ≤ j) :
    offsetAt els i ≤ offsetAt els j := by
  induction j with
  | zero =>
    have hz : i = 0 := Nat.le_zero.mp h
    subst hz
    exact Nat.le_refl _
  | succ m ih =>
    rcases Nat.lt_or_ge i (m + 1) with hlt | hge
    · have hi : i ≤ m := by omega
      have h1 := ih hi
      have h2 : offsetAt els m ≤ offsetAt els (m + 1) := by
        simp only [offsetAt, lensSum, List.take_succ, List.map_append, List.sum_append]
        omega
      omega
    · have he : i = m + 1 := by omega
      rw [he]

theorem offsetAt_le_lensSum (els : List GreenElement) (i : Nat) :
    offsetAt els i ≤ lensSum els := by
  have h := offsetAt_mono els (Nat.le_of_lt (Nat.lt_succ_self i) : i ≤ i + 1)
  have : offsetAt els els.length = lensSum els := by
    simp [offsetAt, List.take_length]
  rcases Nat.lt_or_ge i els.length with hlt | hge
  · have := offsetAt_mono els (Nat.le_of_lt hlt)
    omega
  · have heq : offsetAt els i = lensSum els := by
      simp [offsetAt, List.take_of_length_le hge]
    omega

theorem offsetAt_length (els : List GreenElement) :
    offsetAt els els.length = lensSum els := by
  simp [offsetAt, List.take_length]

theorem binarySearchLoop_found {α : Type} (f : α → Ordering) (xs : List α) (p : Nat)
    (hlt : ∀ j x, xs[j]? = some x → j < p → f x = .lt)
    (hgt : ∀ j x, xs[j]? = some x → p < j → f x = .gt)
    (heq : ∀ x, xs[p]? = some x → f x = .eq) :
    ∀ n left right, right - left ≤ n → left ≤ p → p < right → right ≤ xs.length →
      binarySearchLoop f xs left right = .ok p := by
  intro n
  induction n with
  | zero =>
    intro left right h1 h2 h3 h4
    omega
  | succ m ih =>
    intro left right h1 h2 h3 h4
    have hlr : left < right := by omega
    have hmidlt : left + (right - left) / 2 < right := by omega
    have hmidlen : left + (right - left) / 2 < xs.length := by omega
    rw [binarySearchLoop, dif_pos hlr]
    simp only []
    rw [List.getElem?_eq_getElem hmidlen]
    rcases Nat.lt_trichotomy (left + (right - left) / 2) p with hmp | hmp | hmp
    · have hfx : f (xs[left + (right - left) / 2]) = .lt :=
        hlt _ _ (List.getElem?_eq_getElem hmidlen) hmp
      simp only [hfx]
      exact ih (left + (right - left) / 2 + 1) right (by omega) (by omega) h3 h4
    · have hfx : f (xs[left + (right - left) / 2]) = .eq := by
        apply heq
        rw [← hmp]
        exact List.getElem?_eq_getElem hmidlen
      simp only [hfx]
      rw [hmp]
    · have hfx : f (xs[left + (right - left) / 2]) = .gt :=
        hgt _ _ (List.getElem?_eq_getElem hmidlen) hmp
      simp only [hfx]
      exact ih left (left + (right - left) / 2) (by omega) h2 hmp (by omega)

theorem binarySearchLoop_notFound {α : Type} (f : α → Ordering) (xs : List α) (p : Nat)
    (hlt : ∀ j x, xs[j]? = some x → j < p → f x = .lt)
    (hgt : ∀ j x, xs[j]? = some x → p ≤ j → f x = .gt) :
    ∀ n left right, right - left ≤ n → left ≤ p → p ≤ right → right ≤ xs.length →
      binarySearchLoop f xs left right = .error p := by
  intro n
  induction n with
  | zero =>
    intro left right h1 h2 h3 h4
    have hnlr : ¬ left < right := by omega
    rw [binarySearchLoop, dif_neg hnlr]
    have : left = p := by omega
    rw [this]
  | succ m ih =>
    intro left right h1 h2 h3 h4
    by_cases hlr : left < right
    · have hmidlt : left + (right - left) / 2 < right := by omega
      have hmidlen : left + (right - left) / 2 < xs.length := by omega
      rw [binarySearchLoop, dif_pos hlr]
      simp only []
      rw [List.getElem?_eq_getElem hmidlen]
      rcases Nat.lt_or_ge (left + (right - left) / 2) p with hmp | hmp
      · have hfx : f (xs[left + (right - left) / 2]) = .lt :=
          hlt _ _ (List.getElem?_eq_getElem hmidlen) hmp
        simp only [hfx]
        exact ih (left + (right - left) / 2 + 1) right (by omega) (by omega) h3 h4
      · have hfx : f (xs[left + (right - left) / 2]) = .gt :=
          hgt _ _ (List.getElem?_eq_getElem hmidlen) hmp
        simp only [hfx]
        exact ih left (left + (right - left) / 2) (by omega) h2 hmp (by omega)
    · rw [binarySearchLoop, dif_neg hlr]
      have : left = p := by omega
      rw [this]

theorem binarySearchBy_found {α : Type} (f : α → Ordering) (xs : List α) (p : Nat)
    (hp : p < xs.length)
    (hlt : ∀ j x, xs[j]? = some x → j < p → f x = .lt)
    (hgt : ∀ j x, xs[j]? = some x → p < j → f x = .gt)
    (heq : ∀ x, xs[p]? = some x → f x = .eq) :
    binarySearchBy f xs = .ok p :=
  binarySearchLoop_found f xs p hlt hgt heq xs.length 0 xs.length
    (by omega) (Nat.zero_le p) hp (Nat.le_refl _)

theorem binarySearchBy_notFound {α : Type} (f : α → Ordering) (xs : List α) (p : Nat)
    (hp : p ≤ xs.length)
    (hlt : ∀ j x, xs[j]? = some x → j < p → f x = .lt)
    (hgt : ∀ j x, xs[j]? = some x → p ≤ j → f x = .gt) :
    binarySearchBy f xs = .error p :=
  binarySearchLoop_notFound f xs p hlt hgt xs.length 0 xs.length
    (by omega) (Nat.zero_le p) hp (Nat.le_refl _)

theorem new_slot_ordering (els : List GreenElement) (j : Nat) (el : GreenElement)
    (h : els[j]? = some el) (q : TextRange) :
    TextRange.ordering (GreenChild.ofElement (offsetAt els j) el).range_in_parent q =
      if offsetAt els (j + 1) ≤ q.start then .lt
      else if q.stop ≤ offsetAt els j then .gt
      else .eq := by
  rw [GreenChild.range_in_parent_ofElement, TextRange.ordering, ← offsetAt_succ els j el h]

theorem new_slice_some_inv (k : SyntaxKind) (els : List GreenElement) (j : Nat)
    (c : GreenChild) (h : (GreenNode.new k els).slice[j]? = some c) :
    ∃ el, els[j]? = some el ∧ c = GreenChild.ofElement (offsetAt els j) el := by
  rw [GreenNode.new_slice_get?] at h
  cases hel : els[j]? with
  | none =>
    rw [hel] at h
    exact absurd h (by simp)
  | some el =>
    rw [hel] at h
    refine ⟨el, rfl, ?_⟩
    have : some (GreenChild.ofElement (offsetAt els j) el) = some c := h
    exact (Option.some_inj.mp this).symm

/-- When the query range is non-empty and fully inside slot `p`'s span,
the three-way comparator orders every earlier slot `lt`, every later slot
`gt`, and slot `p` itself `eq`, so the binary search finds exactly `p`. -/
theorem binarySearch_new_contained (k : SyntaxKind) (els : List GreenElement)
    (p : Nat) (elp : GreenElement) (q : TextRange) (hp : els[p]? = some elp)
    (hne : q.start < q.stop)
    (h1 : offsetAt els p ≤ q.start) (h2 : q.stop ≤ offsetAt els (p + 1)) :
    binarySearchBy (fun it => TextRange.ordering it.range_in_parent q)
      (GreenNode.new k els).slice = .ok p := by
  have hplen : p < els.length := by
    have := List.getElem?_eq_some.mp hp
    exact this.1
  apply binarySearchBy_found
  · rw [GreenNode.new_slice_length]; exact hplen
  · intro j x hx hj
    obtain ⟨el, hel, hc⟩ := new_slice_some_inv k els j x hx
    rw [hc, new_slot_ordering els j el hel q]
    have : offsetAt els (j + 1) ≤ q.start := by
      have := offsetAt_mono els (show j + 1 ≤ p by omega)
      omega
    rw [if_pos this]
  · intro j x hx hj
    obtain ⟨el, hel, hc⟩ := new_slice_some_inv k els j x hx
    rw [hc, new_slot_ordering els j el hel q]
    have hstop : q.stop ≤ offsetAt els j := by
      have := offsetAt_mono els (show p + 1 ≤ j by omega)
      omega
    have hnlt : ¬ offsetAt els (j + 1) ≤ q.start := by
      have := offsetAt_mono els (show j ≤ j + 1 by omega)
      omega
    rw [if_neg hnlt, if_pos hstop]
  · intro x hx
    obtain ⟨el, hel, hc⟩ := new_slice_some_inv k els p x hx
    rw [hc, new_slot_ordering els p el hel q]
    have hnlt : ¬ offsetAt els (p + 1) ≤ q.start := by omega
    have hngt : ¬ q.stop ≤ offsetAt els p := by omega
    rw [if_neg hnlt, if_neg hngt]

/-- A non-empty query range fully inside child `p`'s span makes
`child_at_range` return exactly `(p, offset_in_parent p, child p)`. -/
theorem child_at_range_contained (k : SyntaxKind) (els : List GreenElement)
    (p : Nat) (elp : GreenElement) (q : TextRange) (hp : els[p]? = some elp)
    (hne : q.start < q.stop)
    (h1 : offsetAt els p ≤ q.start) (h2 : q.stop ≤ offsetAt els (p + 1)) :
    (GreenNode.new k els).child_at_range q = some (p, offsetAt els p, elp) := by
  have hsearch := binarySearch_new_contained k els p elp q hp hne h1 h2
  have hidx : (GreenNode.new k els).searchIdx q = p := by
    rw [GreenNode.searchIdx, hsearch]
    rfl
  have hslot : (GreenNode.new k els).slice[p]? =
      some (GreenChild.ofElement (offsetAt els p) elp) := by
    rw [GreenNode.new_slice_get?, hp]
    rfl
  have hcont : (GreenChild.ofElement (offsetAt els p) elp).range_in_parent.contains_range q
      = true := by
    rw [GreenChild.range_in_parent_ofElement, TextRange.contains_range]
    simp only [Bool.and_eq_true, decide_eq_true_eq]
    rw [← offsetAt_succ els p elp hp]
    exact ⟨h1, h2⟩
  rw [GreenNode.child_at_range]
  simp only [hidx, hslot, hcont, if_true,
    GreenChild.offset_in_parent_ofElement, GreenChild.as_ref_ofElement]

/-- If no child slot's range contains the query range, `child_at_range`
returns `none` (the slot the search selects is either absent or fails the
containment filter). -/
theorem child_at_range_none_of_not_contained (n : GreenNode) (q : TextRange)
    (h : ∀ (j : Nat) (c : GreenChild),
      n.slice[j]? = some c → c.range_in_parent.contains_range q = false) :
    n.child_at_range q = none := by
  rw [GreenNode.child_at_range]
  cases hc : n.slice[n.searchIdx q]? with
  | none => rfl
  | some c =>
    have hf := h (n.searchIdx q) c hc
    simp only [hc, hf]
    simp

theorem substChildren_past (idx i : Nat) (rep : Option GreenElement)
    (els : List GreenElement) (h : idx < i) :
    substChildren idx i rep els = .ok els := by
  induction els generalizing i rep with
  | nil => rfl
  | cons el rest ih =>
    simp only [substChildren]
    have hne : ¬ i = idx := by omega
    rw [if_neg hne, ih (i + 1) rep (by omega)]
    rfl

theorem substChildren_le (idx i : Nat) (r : GreenElement)
    (els : List GreenElement) (h : i ≤ idx) :
    substChildren idx i (some r) els = .ok (els.set (idx - i) r) := by
  induction els generalizing i with
  | nil => rfl
  | cons el rest ih =>
    simp only [substChildren]
    by_cases hi : i = idx
    · rw [if_pos hi, substChildren_past idx (i + 1) none rest (by omega)]
      have : idx - i = 0 := by omega
      rw [this]
      rfl
    · rw [if_neg hi, ih (i + 1) (by omega)]
      have : idx - i = (idx - (i + 1)) + 1 := by omega
      rw [this]
      rfl

theorem buildSlots_map_as_ref (els : List GreenElement) (acc : Nat) :
    (buildSlots acc els).1.map GreenChild.as_ref = els := by
  induction els generalizing acc with
  | nil => rfl
  | cons el rest ih => simp [buildSlots, ih]

theorem new_slice_map_as_ref (k : SyntaxKind) (els : List GreenElement) :
    (GreenNode.new k els).slice.map GreenChild.as_ref = els :=
  buildSlots_map_as_ref els 0

/-- Applying `replace_child` on a freshly built node rebuilds the node from the
original element list with the element at `idx` substituted (`List.set`). -/
theorem replace_child_new (k : SyntaxKind) (els : List GreenElement)
    (idx : Nat) (e : GreenElement) :
    (GreenNode.new k els).replace_child idx e =
      .ok (GreenNode.new k (els.set idx e)) := by
  rw [GreenNode.replace_child, new_slice_map_as_ref,
    substChildren_le idx 0 e els (Nat.zero_le idx)]
  rfl

/-- The function `replace_child` never reaches its internal `unwrap` panic: for every
node (however formed) it succeeds. -/
theorem replace_child_total (n : GreenNode) (idx : Nat) (e : GreenElement) :
    n.replace_child idx e =
      .ok (GreenNode.new n.kind ((n.slice.map GreenChild.as_ref).set idx e)) := by
  rw [GreenNode.replace_child, substChildren_le idx 0 e _ (Nat.zero_le idx)]
  rfl

/-- Zero-length query exactly on the boundary before slot `i + 1` (which
has nonzero length): the search misses every slot and reports insertion
point `i + 1`. -/
theorem binarySearch_new_boundary (k : SyntaxKind) (els : List GreenElement)
    (i : Nat) (elb : GreenElement) (hb : els[i + 1]? = some elb)
    (hlb : 0 < elb.text_len) :
    binarySearchBy
      (fun it => TextRange.ordering it.range_in_parent
        ⟨offsetAt els (i + 1), offsetAt els (i + 1)⟩)
      (GreenNode.new k els).slice = .error (i + 1) := by
  have hblen : i + 1 < els.length := (List.getElem?_eq_some.mp hb).1
  apply binarySearchBy_notFound
  · rw [GreenNode.new_slice_length]; omega
  · intro j x hx hj
    obtain ⟨el, hel, hc⟩ := new_slice_some_inv k els j x hx
    rw [hc, new_slot_ordering els j el hel]
    have : offsetAt els (j + 1) ≤ offsetAt els (i + 1) :=
      offsetAt_mono els (by omega)
    rw [if_pos this]
  · intro j x hx hj
    obtain ⟨el, hel, hc⟩ := new_slice_some_inv k els j x hx
    rw [hc, new_slot_ordering els j el hel]
    have hstep : offsetAt els (i + 2) = offsetAt els (i + 1) + elb.text_len :=
      offsetAt_succ els (i + 1) elb hb
    have hmono : offsetAt els (i + 2) ≤ offsetAt els (j + 1) :=
      offsetAt_mono els (by omega)
    have hnlt : ¬ offsetAt els (j + 1) ≤ offsetAt els (i + 1) := by omega
    have hgt : offsetAt els (i + 1) ≤ offsetAt els j :=
      offsetAt_mono els (by omega)
    rw [if_neg hnlt, if_pos hgt]

/-- The zero-length query at the very end of the node's text: every slot
compares less, so the search reports insertion point `length`. -/
theorem binarySearch_new_atEnd (k : SyntaxKind) (els : List GreenElement) :
    binarySearchBy
      (fun it => TextRange.ordering it.range_in_parent ⟨lensSum els, lensSum els⟩)
      (GreenNode.new k els).slice = .error els.length := by
  apply binarySearchBy_notFound
  · rw [GreenNode.new_slice_length]
  · intro j x hx hj
    obtain ⟨el, hel, hc⟩ := new_slice_some_inv k els j x hx
    rw [hc, new_slot_ordering els j el hel]
    rw [if_pos (offsetAt_le_lensSum els (j + 1))]
  · intro j x hx hj
    have : j < els.length := by
      have h := List.getElem?_eq_some.mp hx
      have := h.1
      rw [GreenNode.new_slice_length] at this
      exact this
    omega

theorem collect_eq_map (cs : List GreenChild) :
    Children.collect ⟨cs⟩ = cs.map GreenChild.as_ref := by
  induction cs with
  | nil => simp only [Children.collect, List.map_nil]
  | cons c rest ih =>
    simp only [Children.collect, List.map_cons]
    rw [ih]

theorem collectBack_eq_reverse (cs : List GreenChild) :
    Children.collectBack ⟨cs⟩ = (cs.map GreenChild.as_ref).reverse := by
  induction cs using List.reverseRecOn with
  | nil => rw [Children.collectBack]; rfl
  | append_singleton ys y ih =>
    rw [Children.collectBack]
    split
    · rename_i heq
      rw [List.getLast?_concat] at heq
      exact absurd heq (by simp)
    · rename_i x heq
      rw [List.getLast?_concat] at heq
      have hx : y = x := Option.some_inj.mp heq
      simp only [List.dropLast_concat]
      rw [ih, ← hx]
      simp

@[simp]
theorem TextRange.contains_range_iff (r other : TextRange) :
    r.contains_range other = true ↔ r.start ≤ other.start ∧ other.stop ≤ r.stop := by
  simp [TextRange.contains_range]

theorem child_at_range_some_inv (n : GreenNode) (q : TextRange)
    (i off : Nat) (el : GreenElement)
    (h : n.child_at_range q = some (i, off, el)) :
    i = n.searchIdx q ∧
      ∃ c : GreenChild, n.slice[i]? = some c ∧
        c.range_in_parent.contains_range q = true ∧
        off = c.offset_in_parent ∧ el = c.as_ref := by
  rw [GreenNode.child_at_range] at h
  cases hc : n.slice[n.searchIdx q]? with
  | none => rw [hc] at h; exact absurd h (by simp)
  | some c =>
    rw [hc] at h
    have h2 : (if c.range_in_parent.contains_range q = true then
        some (n.searchIdx q, c.offset_in_parent, c.as_ref)
      else (none : Option (Nat × Nat × GreenElement))) = some (i, off, el) := h
    by_cases hcont : c.range_in_parent.contains_range q = true
    · rw [if_pos hcont] at h2
      have h3 : i = n.searchIdx q ∧ off = c.offset_in_parent ∧ el = c.as_ref := by
        have heq := Option.some_inj.mp h2
        refine ⟨?_, ?_, ?_⟩
        · exact (congrArg Prod.fst heq).symm
        · exact (congrArg (fun p => p.2.1) heq).symm
        · exact (congrArg (fun p => p.2.2) heq).symm
      refine ⟨h3.1, c, ?_, hcont, h3.2.1, h3.2.2⟩
      rw [h3.1, hc]
    · rw [if_neg hcont] at h2
      exact absurd h2 (by simp)

theorem child_at_range_some_of_contains (n : GreenNode) (q : TextRange)
    (c : GreenChild) (hc : n.slice[n.searchIdx q]? = some c)
    (hcont : c.range_in_parent.contains_range q = true) :
    n.child_at_range q = some (n.searchIdx q, c.offset_in_parent, c.as_ref) := by
  rw [GreenNode.child_at_range, hc]
  show (if c.range_in_parent.contains_range q = true then
      some (n.searchIdx q, c.offset_in_parent, c.as_ref)
    else (none : Option (Nat × Nat × GreenElement))) = _
  rw [if_pos hcont]

/-- A heap of live green-node allocations, indexed by allocation id: the
embedding of the `ThinArc` heap cells that back `GreenNode` values.  Every
node returned to a caller lives in some cell; `alloc` models a fresh
`ThinArc::from_header_and_iter` allocation. -/
structure Heap where
  cells : List GreenNode

/-- Allocating a freshly built node: appends a new cell and returns its
(fresh) id; no existing cell is written. -/
def Heap.alloc (h : Heap) (n : GreenNode) : Heap × Nat :=
  (⟨h.cells ++ [n]⟩, h.cells.length)

/-- Embedding of `replace_child` at the allocation level: read the receiver's cell,
compute the replacement node purely, and allocate it as a brand-new cell.
`none` covers a dangling id or the internal `unwrap` panic. -/
def Heap.replaceChildAlloc (h : Heap) (id idx : Nat) (e : GreenElement) :
    Option (Heap × Nat) :=
  match h.cells[id]? with
  | none => none
  | some n =>
    match n.replace_child idx e with
    | .ok m => some (h.alloc m)
    | .error _ => none

theorem new_slice_get_as_ref (k : SyntaxKind) (xs : List GreenElement) (j : Nat) :
    (GreenNode.new k xs).slice[j]?.map GreenChild.as_ref = xs[j]? := by
  rw [GreenNode.new_slice_get?]
  cases xs[j]? <;> simp

theorem new_slice_get_offset (k : SyntaxKind) (xs : List GreenElement) (j : Nat)
    (h : j < xs.length) :
    (GreenNode.new k xs).slice[j]?.map GreenChild.offset_in_parent = some (offsetAt xs j) := by
  rw [GreenNode.new_slice_get?, List.getElem?_eq_getElem h]
  simp

theorem new_eq_iff (k1 k2 : SyntaxKind) (els1 els2 : List GreenElement) :
    GreenNode.new k1 els1 = GreenNode.new k2 els2 ↔ k1 = k2 ∧ els1 = els2 := by
  constructor
  · intro h
    have hk : (GreenNode.new k1 els1).kind = (GreenNode.new k2 els2).kind := by rw [h]
    have hs : (GreenNode.new k1 els1).slice = (GreenNode.new k2 els2).slice := by rw [h]
    refine ⟨by simpa using hk, ?_⟩
    have hels := congrArg (List.map GreenChild.as_ref) hs
    rwa [new_slice_map_as_ref, new_slice_map_as_ref] at hels
  · rintro ⟨rfl, rfl⟩
    rfl

/-- Concrete fixture mirroring the spec's `BLOCK` scenario: a length-1
left-brace token, a length-5 expression node, a length-1 right-brace
token. -/
def tokL : GreenElement := .token ⟨11, 1⟩

/-- The middle expression node of the fixture (total length 5). -/
def exprNode : GreenElement := .node (GreenNode.new 20 [.token ⟨14, 5⟩])

/-- The right-brace token of the fixture. -/
def tokR : GreenElement := .token ⟨12, 1⟩

/-- A zero-length replacement token (the spec scenario's `ERROR` token). -/
def tokErr : GreenElement := .token ⟨99, 0⟩

/-- The fixture child sequence, total length 7. -/
def elsEx : List GreenElement := [tokL, exprNode, tokR]

/-- C1: for every kind tag and every finite child sequence with text
lengths L0..Ln-1, `GreenNode::new` builds a node whose `text_len` is the
sum of all Li and whose child slot `i` stores `offset_in_parent` equal to
the sum of Lj for `j < i` (child 0 at offset 0, offsets contiguous
left-to-right). -/
theorem C1_new_text_len_and_offsets (k : SyntaxKind) (els : List GreenElement) :
    (GreenNode.new k els).text_len = lensSum els ∧
    ∀ i : Nat, i < els.length →
      (GreenNode.new k els).slice[i]?.map GreenChild.offset_in_parent =
        some (offsetAt els i) := by
  refine ⟨GreenNode.new_text_len k els, ?_⟩
  intro i hi
  exact new_slice_get_offset k els i hi

/-- Witness for C1 at the fixture: slot 2 sits at offset L0 + L1 = 6, and
the total is 7. -/
theorem C1_witness :
    2 < elsEx.length ∧
      (GreenNode.new 9 elsEx).slice[2]?.map GreenChild.offset_in_parent =
        some (offsetAt elsEx 2) :=
  ⟨by decide, (C1_new_text_len_and_offsets 9 elsEx).2 2 (by decide)⟩

/-- C2: `child_at_range` returns `some (index, offset_in_parent, child)`
exactly when the slot resolved by the search fully contains the query
range, and the triple is that slot's index, stored offset and element;
in particular a non-empty query range fully inside child `i`'s span
returns `(i, offset_in_parent i, child i)`, a range straddling the
boundary between child `i` and `i + 1` returns `none`, and a range
reaching past the node's total length returns `none`. -/
theorem C2_child_at_range_spec (k : SyntaxKind) (els : List GreenElement) (q : TextRange) :
    (∀ (i off : Nat) (el : GreenElement),
      (GreenNode.new k els).child_at_range q = some (i, off, el) →
      i = (GreenNode.new k els).searchIdx q ∧
      ∃ c : GreenChild, (GreenNode.new k els).slice[i]? = some c ∧
        c.range_in_parent.contains_range q = true ∧
        off = c.offset_in_parent ∧ el = c.as_ref) ∧
    (∀ c : GreenChild,
      (GreenNode.new k els).slice[(GreenNode.new k els).searchIdx q]? = some c →
      c.range_in_parent.contains_range q = true →
      (GreenNode.new k els).child_at_range q =
        some ((GreenNode.new k els).searchIdx q, c.offset_in_parent, c.as_ref)) ∧
    (∀ (i : Nat) (el : GreenElement), els[i]? = some el → q.start < q.stop →
      offsetAt els i ≤ q.start → q.stop ≤ offsetAt els (i + 1) →
      (GreenNode.new k els).child_at_range q = some (i, offsetAt els i, el)) ∧
    (∀ i : Nat, i + 1 < els.length → q.start < offsetAt els (i + 1) →
      offsetAt els (i + 1) < q.stop →
      (GreenNode.new k els).child_at_range q = none) ∧
    (lensSum els < q.stop → (GreenNode.new k els).child_at_range q = none) := by
  refine ⟨?_, ?_, ?_, ?_, ?_⟩
  · intro i off el h
    exact child_at_range_some_inv (GreenNode.new k els) q i off el h
  · intro c hc hcont
    exact child_at_range_some_of_contains (GreenNode.new k els) q c hc hcont
  · intro i el hel hne h1 h2
    exact child_at_range_contained k els i el q hel hne h1 h2
  · intro i hi h1 h2
    apply child_at_range_none_of_not_contained
    intro j c hc
    obtain ⟨el, hel, hcel⟩ := new_slice_some_inv k els j c hc
    subst hcel
    rw [GreenChild.range_in_parent_ofElement]
    cases hb : TextRange.contains_range ⟨offsetAt els j, offsetAt els j + el.text_len⟩ q with
    | false => rfl
    | true =>
      exfalso
      rw [TextRange.contains_range_iff] at hb
      dsimp only at hb
      rw [← offsetAt_succ els j el hel] at hb
      rcases Nat.lt_or_ge j (i + 1) with hj | hj
      · have := offsetAt_mono els (show j + 1 ≤ i + 1 by omega)
        omega
      · have := offsetAt_mono els (show i + 1 ≤ j by omega)
        omega
  · intro hout
    apply child_at_range_none_of_not_contained
    intro j c hc
    obtain ⟨el, hel, hcel⟩ := new_slice_some_inv k els j c hc
    subst hcel
    rw [GreenChild.range_in_parent_ofElement]
    cases hb : TextRange.contains_range ⟨offsetAt els j, offsetAt els j + el.text_len⟩ q with
    | false => rfl
    | true =>
      exfalso
      rw [TextRange.contains_range_iff] at hb
      dsimp only at hb
      rw [← offsetAt_succ els j el hel] at hb
      have := offsetAt_le_lensSum els (j + 1)
      omega

/-- Witness for C2 at the fixture: the query `[1, 6)` lies fully inside
the middle child's span and resolves to `(1, 1, exprNode)`. -/
theorem C2_witness :
    (elsEx[1]? = some exprNode ∧ (1 : Nat) < 6 ∧ offsetAt elsEx 1 ≤ 1 ∧
      6 ≤ offsetAt elsEx 2) ∧
    (GreenNode.new 9 elsEx).child_at_range ⟨1, 6⟩ = some (1, offsetAt elsEx 1, exprNode) :=
  ⟨⟨rfl, by decide, by decide, by decide⟩,
    (C2_child_at_range_spec 9 elsEx ⟨1, 6⟩).2.2.1 1 exprNode rfl (by decide)
      (by decide) (by decide)⟩

/-- C3: for a node with children `els` and a valid index `i`,
`replace_child i e` succeeds and yields a node of the same kind whose
child at every `j ≠ i` equals the original child `j`, whose child at `i`
equals `e`, whose `text_len` is the sum of the updated children's
lengths, and whose offsets are the recomputed contiguous prefix sums of
the updated lengths. -/
theorem C3_replace_child_spec (k : SyntaxKind) (els : List GreenElement) (i : Nat)
    (e : GreenElement) (hi : i < els.length) :
    ∃ n2 : GreenNode, (GreenNode.new k els).replace_child i e = .ok n2 ∧
      n2.kind = k ∧
      n2.slice.length = els.length ∧
      (∀ j : Nat, j < els.length → j ≠ i →
        n2.slice[j]?.map GreenChild.as_ref = els[j]?) ∧
      n2.slice[i]?.map GreenChild.as_ref = some e ∧
      n2.text_len = lensSum (els.set i e) ∧
      (∀ j : Nat, j < els.length →
        n2.slice[j]?.map GreenChild.offset_in_parent = some (offsetAt (els.set i e) j)) := by
  refine ⟨GreenNode.new k (els.set i e), replace_child_new k els i e, rfl, ?_, ?_, ?_, ?_, ?_⟩
  · rw [GreenNode.new_slice_length, List.length_set]
  · intro j hj hne
    rw [new_slice_get_as_ref, List.getElem?_set_ne (fun h => hne h.symm)]
  · rw [new_slice_get_as_ref, List.getElem?_set_self hi]
  · exact GreenNode.new_text_len k (els.set i e)
  · intro j hj
    exact new_slice_get_offset k (els.set i e) j (by rwa [List.length_set])

/-- Witness for C3 at the fixture: replacing the middle child with the
zero-length error token. -/
theorem C3_witness :
    1 < elsEx.length ∧
    ∃ n2 : GreenNode, (GreenNode.new 9 elsEx).replace_child 1 tokErr = .ok n2 ∧
      n2.kind = 9 ∧
      n2.slice.length = elsEx.length ∧
      (∀ j : Nat, j < elsEx.length → j ≠ 1 →
        n2.slice[j]?.map GreenChild.as_ref = elsEx[j]?) ∧
      n2.slice[1]?.map GreenChild.as_ref = some tokErr ∧
      n2.text_len = lensSum (elsEx.set 1 tokErr) ∧
      (∀ j : Nat, j < elsEx.length →
        n2.slice[j]?.map GreenChild.offset_in_parent =
          some (offsetAt (elsEx.set 1 tokErr) j)) :=
  ⟨by decide, C3_replace_child_spec 9 elsEx 1 tokErr (by decide)⟩

/-- C4: at the allocation level, `replace_child` writes no existing cell:
every pre-existing allocation (the receiver's included) reads back
unchanged, and the result is a brand-new allocation with a fresh id,
holding the rebuilt node. -/
theorem C4_replace_child_persistent (h : Heap) (id idx : Nat) (e : GreenElement)
    (n : GreenNode) (hn : h.cells[id]? = some n) :
    ∃ (h2 : Heap) (newId : Nat),
      h.replaceChildAlloc id idx e = some (h2, newId) ∧
      (∀ j : Nat, j < h.cells.length → h2.cells[j]? = h.cells[j]?) ∧
      h2.cells[id]? = some n ∧
      newId = h.cells.length ∧
      id ≠ newId ∧
      h2.cells[newId]? =
        some (GreenNode.new n.kind ((n.slice.map GreenChild.as_ref).set idx e)) := by
  have hid : id < h.cells.length := (List.getElem?_eq_some.mp hn).1
  refine ⟨⟨h.cells ++ [GreenNode.new n.kind ((n.slice.map GreenChild.as_ref).set idx e)]⟩,
    h.cells.length, ?_, ?_, ?_, rfl, by omega, ?_⟩
  · rw [Heap.replaceChildAlloc, hn]
    show (match n.replace_child idx e with
      | .ok m => some (h.alloc m)
      | .error _ => none) = _
    rw [replace_child_total]
    rfl
  · intro j hj
    exact List.getElem?_append_left hj
  · rw [List.getElem?_append_left hid]
    exact hn
  · exact List.getElem?_concat_length _ _

/-- Witness for C4: a one-cell heap holding the fixture node. -/
theorem C4_witness :
    (⟨[GreenNode.new 9 elsEx]⟩ : Heap).cells[0]? = some (GreenNode.new 9 elsEx) ∧
    ∃ (h2 : Heap) (newId : Nat),
      (⟨[GreenNode.new 9 elsEx]⟩ : Heap).replaceChildAlloc 0 1 tokErr = some (h2, newId) ∧
      (∀ j : Nat, j < (⟨[GreenNode.new 9 elsEx]⟩ : Heap).cells.length →
        h2.cells[j]? = (⟨[GreenNode.new 9 elsEx]⟩ : Heap).cells[j]?) ∧
      h2.cells[0]? = some (GreenNode.new 9 elsEx) ∧
      newId = (⟨[GreenNode.new 9 elsEx]⟩ : Heap).cells.length ∧
      (0 : Nat) ≠ newId ∧
      h2.cells[newId]? = some (GreenNode.new (GreenNode.new 9 elsEx).kind
        (((GreenNode.new 9 elsEx).slice.map GreenChild.as_ref).set 1 tokErr)) :=
  ⟨rfl, C4_replace_child_persistent ⟨[GreenNode.new 9 elsEx]⟩ 0 1 tokErr
    (GreenNode.new 9 elsEx) rfl⟩

/-- C5: when the binary search finds no child comparing equal, the slot
tested for containment is the one just before the insertion point,
clamped to index 0; a zero-length query exactly on the boundary between
children `i` and `i + 1` (both of nonzero length) misses every child,
gets insertion point `i + 1`, and is attached to the preceding child
`i`. -/
theorem C5_boundary_attaches_to_preceding (k : SyntaxKind) (els : List GreenElement)
    (i : Nat) (ela elb : GreenElement) (q : TextRange)
    (ha : els[i]? = some ela) (hb : els[i + 1]? = some elb)
    (hla : 0 < ela.text_len) (hlb : 0 < elb.text_len)
    (hq : q = ⟨offsetAt els (i + 1), offsetAt els (i + 1)⟩) :
    (∀ ip : Nat, resolveSearch (.error ip) = ip - 1) ∧
    binarySearchBy (fun it => TextRange.ordering it.range_in_parent q)
      (GreenNode.new k els).slice = .error (i + 1) ∧
    (GreenNode.new k els).searchIdx q = i ∧
    (GreenNode.new k els).child_at_range q = some (i, offsetAt els i, ela) := by
  subst hq
  have hsearch := binarySearch_new_boundary k els i elb hb hlb
  have hidx : (GreenNode.new k els).searchIdx
      ⟨offsetAt els (i + 1), offsetAt els (i + 1)⟩ = i := by
    rw [GreenNode.searchIdx, hsearch]
    rfl
  refine ⟨fun ip => rfl, hsearch, hidx, ?_⟩
  have hslot : (GreenNode.new k els).slice[(GreenNode.new k els).searchIdx
      ⟨offsetAt els (i + 1), offsetAt els (i + 1)⟩]? =
      some (GreenChild.ofElement (offsetAt els i) ela) := by
    rw [hidx, GreenNode.new_slice_get?, ha]
    rfl
  have hcont : (GreenChild.ofElement (offsetAt els i) ela).range_in_parent.contains_range
      ⟨offsetAt els (i + 1), offsetAt els (i + 1)⟩ = true := by
    rw [GreenChild.range_in_parent_ofElement, TextRange.contains_range_iff]
    dsimp only
    rw [← offsetAt_succ els i ela ha]
    exact ⟨offsetAt_mono els (by omega), Nat.le_refl _⟩
  have := child_at_range_some_of_contains (GreenNode.new k els)
    ⟨offsetAt els (i + 1), offsetAt els (i + 1)⟩ _ hslot hcont
  rw [this, hidx]
  simp

/-- Witness for C5 at the fixture: the empty query at offset 1, the
boundary between the brace token and the expression node, attaches to
child 0. -/
theorem C5_witness :
    (elsEx[0]? = some tokL ∧ elsEx[1]? = some exprNode ∧
      0 < GreenElement.text_len tokL ∧ 0 < GreenElement.text_len exprNode ∧
      (⟨1, 1⟩ : TextRange) = ⟨offsetAt elsEx 1, offsetAt elsEx 1⟩) ∧
    ((GreenNode.new 9 elsEx).searchIdx ⟨1, 1⟩ = 0 ∧
      (GreenNode.new 9 elsEx).child_at_range ⟨1, 1⟩ = some (0, offsetAt elsEx 0, tokL)) :=
  ⟨⟨rfl, rfl, by decide, by decide, by rfl⟩,
    ⟨(C5_boundary_attaches_to_preceding 9 elsEx 0 tokL exprNode ⟨1, 1⟩ rfl rfl
        (by decide) (by decide) (by rfl)).2.2.1,
     (C5_boundary_attaches_to_preceding 9 elsEx 0 tokL exprNode ⟨1, 1⟩ rfl rfl
        (by decide) (by decide) (by rfl)).2.2.2⟩⟩

/-- C6: equality of nodes is structural — two independently constructed
nodes compare equal exactly when their kind tags and child element
sequences (hence their child slots, offsets included) agree — and equal
nodes hash equal; no allocation identity enters either relation (the
embedding of a node carries no address, only structure). -/
theorem C6_structural_eq_hash (k1 k2 : SyntaxKind) (els1 els2 : List GreenElement) :
    (GreenNode.new k1 els1 = GreenNode.new k2 els2 ↔ k1 = k2 ∧ els1 = els2) ∧
    (∀ a b : GreenNode, a = b → hashGreenNode a = hashGreenNode b) := by
  refine ⟨new_eq_iff k1 k2 els1 els2, ?_⟩
  intro a b h
  rw [h]

/-- Witness for C6: the fixture node equals itself, hence equal hash. -/
theorem C6_witness :
    GreenNode.new 9 elsEx = GreenNode.new 9 elsEx ∧
      hashGreenNode (GreenNode.new 9 elsEx) = hashGreenNode (GreenNode.new 9 elsEx) :=
  ⟨rfl, (C6_structural_eq_hash 9 9 elsEx elsEx).2
    (GreenNode.new 9 elsEx) (GreenNode.new 9 elsEx) rfl⟩

/-- C7: `children()` is a fresh view yielding exactly the node's child
elements in order; forward collection gives the elements, backward
collection gives their reverse, the reported remaining length is exact,
both ends are fused (an exhausted view keeps yielding nothing), and an
empty child sequence gives an immediately exhausted view with
`text_len = 0`. -/
theorem C7_children_view (k : SyntaxKind) (els : List GreenElement) :
    (GreenNode.new k els).children.collect = els ∧
    (GreenNode.new k els).children.collectBack = els.reverse ∧
    (GreenNode.new k els).children.len = els.length ∧
    (∀ c : Children, c.len = c.collect.length) ∧
    (∀ c c2 : Children, c.next = (none, c2) → c2.next = (none, c2)) ∧
    (∀ c c2 : Children, c.next_back = (none, c2) → c2.next_back = (none, c2)) ∧
    ((GreenNode.new k ([] : List GreenElement)).children.next =
      (none, (GreenNode.new k []).children) ∧
      (GreenNode.new k ([] : List GreenElement)).text_len = 0) := by
  refine ⟨?_, ?_, ?_, ?_, ?_, ?_, rfl, rfl⟩
  · show Children.collect ⟨(GreenNode.new k els).slice⟩ = els
    rw [collect_eq_map, new_slice_map_as_ref]
  · show Children.collectBack ⟨(GreenNode.new k els).slice⟩ = els.reverse
    rw [collectBack_eq_reverse, new_slice_map_as_ref]
  · exact GreenNode.new_slice_length k els
  · intro c
    obtain ⟨cs⟩ := c
    rw [collect_eq_map]
    simp [Children.len]
  · intro c c2 h
    obtain ⟨cs⟩ := c
    cases cs with
    | nil =>
      have hc2 : (⟨[]⟩ : Children) = c2 := congrArg Prod.snd h
      rw [← hc2]
      rfl
    | cons x rest =>
      exact absurd (congrArg Prod.fst h) (by simp [Children.next])
  · intro c c2 h
    obtain ⟨cs⟩ := c
    cases hl : cs.getLast? with
    | none =>
      have hc2 : c2 = ⟨cs⟩ := by
        have := congrArg Prod.snd h
        rw [Children.next_back, hl] at this
        exact this.symm
      rw [hc2, Children.next_back, hl]
    | some x =>
      have := congrArg Prod.fst h
      rw [Children.next_back, hl] at this
      exact absurd this (by simp)

/-- Witness for C7: the fused-forward conjunct applied to the exhausted
view. -/
theorem C7_witness :
    (⟨[]⟩ : Children).next = (none, (⟨[]⟩ : Children)) ∧
      (⟨[]⟩ : Children).next = (none, (⟨[]⟩ : Children)) :=
  ⟨rfl, (C7_children_view 9 elsEx).2.2.2.2.1 ⟨[]⟩ ⟨[]⟩ rfl⟩

/-- C8: the operations are total: `replace_child` always succeeds (its
internal `take().unwrap()` never panics, for any receiver, index and
replacement), and `child_at_range`'s only absent result is the `none` of
its option, which is ordinary control flow.  (The `Arc::get_mut` unwrap
inside `new` concerns exclusive ownership of the freshly made allocation
and has no value-level content; `new`, `kind`, `text_len` and `children`
are total functions of the embedding by construction.) -/
theorem C8_total_operations (n : GreenNode) (idx : Nat) (e : GreenElement)
    (q : TextRange) :
    (∃ m : GreenNode, n.replace_child idx e = .ok m) ∧
    (n.child_at_range q = none ∨
      ∃ out : Nat × Nat × GreenElement, n.child_at_range q = some out) := by
  refine ⟨⟨_, replace_child_total n idx e⟩, ?_⟩
  cases h : n.child_at_range q with
  | none => exact Or.inl rfl
  | some out => exact Or.inr ⟨out, rfl⟩

/-- C9: an out-of-bounds index makes `replace_child` a no-op that still
succeeds: no position matches the index, the replacement is silently
discarded, and the result equals the original node. -/
theorem C9_replace_child_out_of_bounds (k : SyntaxKind) (els : List GreenElement)
    (idx : Nat) (e : GreenElement) (h : els.length ≤ idx) :
    (GreenNode.new k els).replace_child idx e = .ok (GreenNode.new k els) := by
  rw [replace_child_new, List.set_eq_of_length_le h]

/-- Witness for C9: replacing at index 5 of the three-child fixture. -/
theorem C9_witness :
    elsEx.length ≤ 5 ∧
      (GreenNode.new 9 elsEx).replace_child 5 tokErr = .ok (GreenNode.new 9 elsEx) :=
  ⟨by decide, C9_replace_child_out_of_bounds 9 elsEx 5 tokErr (by decide)⟩

/-- C10: for a node with at least one child and total length L, the
zero-length query `[L, L)` makes every child compare less, so the search
reports insertion point n, slot n - 1 is selected, the empty range at
that child's end passes containment, and the last child is returned. -/
theorem C10_end_query_returns_last (k : SyntaxKind) (els : List GreenElement)
    (lastEl : GreenElement) (hne : 0 < els.length)
    (hlast : els[els.length - 1]? = some lastEl) :
    binarySearchBy (fun it => TextRange.ordering it.range_in_parent
      ⟨lensSum els, lensSum els⟩) (GreenNode.new k els).slice = .error els.length ∧
    (GreenNode.new k els).searchIdx ⟨lensSum els, lensSum els⟩ = els.length - 1 ∧
    (GreenNode.new k els).child_at_range ⟨lensSum els, lensSum els⟩ =
      some (els.length - 1, offsetAt els (els.length - 1), lastEl) := by
  have hsearch := binarySearch_new_atEnd k els
  have hidx : (GreenNode.new k els).searchIdx ⟨lensSum els, lensSum els⟩ =
      els.length - 1 := by
    rw [GreenNode.searchIdx, hsearch]
    rfl
  refine ⟨hsearch, hidx, ?_⟩
  have hslot : (GreenNode.new k els).slice[(GreenNode.new k els).searchIdx
      ⟨lensSum els, lensSum els⟩]? =
      some (GreenChild.ofElement (offsetAt els (els.length - 1)) lastEl) := by
    rw [hidx, GreenNode.new_slice_get?, hlast]
    rfl
  have hcont : (GreenChild.ofElement (offsetAt els (els.length - 1))
      lastEl).range_in_parent.contains_range ⟨lensSum els, lensSum els⟩ = true := by
    rw [GreenChild.range_in_parent_ofElement, TextRange.contains_range_iff]
    dsimp only
    rw [← offsetAt_succ els (els.length - 1) lastEl hlast]
    have hsucc : els.length - 1 + 1 = els.length := by omega
    rw [hsucc, offsetAt_length]
    exact ⟨offsetAt_le_lensSum els (els.length - 1), Nat.le_refl _⟩
  have := child_at_range_some_of_contains (GreenNode.new k els)
    ⟨lensSum els, lensSum els⟩ _ hslot hcont
  rw [this, hidx]
  simp

/-- Witness for C10 at the fixture: the empty query at offset 7 returns
the right-brace child at index 2, offset 6. -/
theorem C10_witness :
    (0 < elsEx.length ∧ elsEx[elsEx.length - 1]? = some tokR) ∧
      (GreenNode.new 9 elsEx).child_at_range ⟨lensSum elsEx, lensSum elsEx⟩ =
        some (elsEx.length - 1, offsetAt elsEx (elsEx.length - 1), tokR) :=
  ⟨⟨by decide, rfl⟩,
    (C10_end_query_returns_last 9 elsEx tokR (by decide) rfl).2.2⟩

end Rowan
